import Mathlib

/-!
Verification development for the vector-fitting engine described by the
repository's documentation notebooks (scikit-rf `VectorFitting`).

The repository ships only documentation notebooks; the fitting engine itself
(`skrf.vectorfitting`) is not part of the source tree.  All definitions below
are therefore shallow models built from the specification's narrative and the
notebooks' documented behaviour, over exact rational arithmetic.  Each main
definition's doc comment records what is being modelled.
-/

namespace VectorFit

/-- Modelled from the spec: complex numbers with exact rational components.
The engine's samples, poles and residues are complex; `ℚ × ℚ` keeps every
operation executable and decidable. -/
structure Cplx where
  re : ℚ
  im : ℚ
deriving DecidableEq, Repr

namespace Cplx

def add (a b : Cplx) : Cplx := ⟨a.re + b.re, a.im + b.im⟩

def sub (a b : Cplx) : Cplx := ⟨a.re - b.re, a.im - b.im⟩

def mul (a b : Cplx) : Cplx := ⟨a.re * b.re - a.im * b.im, a.re * b.im + a.im * b.re⟩

def neg (a : Cplx) : Cplx := ⟨-a.re, -a.im⟩

/-- Squared modulus `re² + im²`, the rational stand-in for `|z|²`. -/
def normSq (a : Cplx) : ℚ := a.re * a.re + a.im * a.im

def conj (a : Cplx) : Cplx := ⟨a.re, -a.im⟩

/-- Multiplicative inverse (with the `ℚ` convention `0⁻¹ = 0`). -/
def inv (a : Cplx) : Cplx := ⟨a.re / normSq a, -a.im / normSq a⟩

/-- Multiplication by the imaginary unit. -/
def iMul (a : Cplx) : Cplx := ⟨-a.im, a.re⟩

def half (a : Cplx) : Cplx := ⟨a.re / 2, a.im / 2⟩

instance : Zero Cplx := ⟨⟨0, 0⟩⟩

instance : One Cplx := ⟨⟨1, 0⟩⟩

instance : Add Cplx := ⟨add⟩

instance : Sub Cplx := ⟨sub⟩

instance : Mul Cplx := ⟨mul⟩

instance : Neg Cplx := ⟨neg⟩

end Cplx

/-- Modelled from the spec (§3 Pole invariant): the stabilisation clamp applied
after each relocation step.  A pole whose real part is not negative is clamped
back into the open left half plane (positive real parts are mirrored, a zero
real part is clamped to `-1`). -/
def stabilizeRe (x : ℚ) : ℚ :=
  if x < 0 then x else if x = 0 then -1 else -x

def stabilize (p : Cplx) : Cplx := ⟨stabilizeRe p.re, p.im⟩

def stabAll (ps : List Cplx) : List Cplx := ps.map stabilize

/-- Executable absolute value on `ℚ` (reduces inside the kernel). -/
def qabs (x : ℚ) : ℚ := if x < 0 then -x else x

/-- Modelled from the spec (§4.2): total pole movement between two iterates,
the quantity tested against the convergence tolerance.  The sum of
component-wise absolute differences plus a length-mismatch penalty; it is
symmetric in its arguments. -/
def poleDist (a b : List Cplx) : ℚ :=
  (List.zipWith (fun p q => qabs (p.re - q.re) + qabs (p.im - q.im)) a b).sum
    + qabs ((a.length : ℚ) - (b.length : ℚ))

/-- Modelled from the spec (§4.2): one effective relocation step.  The raw
least-squares-driven update `raw` is followed by the stabilisation clamp on
every pole (real parts forced negative). -/
def effStep (raw : List Cplx → List Cplx) (p : List Cplx) : List Cplx :=
  (raw p).map stabilize

structure RelocCfg where
  tol : ℚ
  maxIter : ℕ
deriving DecidableEq, Repr

structure RelocResult where
  poles : List Cplx
  converged : Bool
  iterations : ℕ
deriving DecidableEq, Repr

/-- Modelled from the spec (§4.2, §7): the pole-relocation iteration.  Each
round computes the stabilised step; if the movement is within tolerance the
current poles are kept and the run is flagged converged, otherwise iteration
continues.  Exhausting the iteration budget returns the best-effort iterate
with `converged := false` — non-convergence is reported, never fatal. -/
def relocLoop (es : List Cplx → List Cplx) (tol : ℚ) :
    ℕ → ℕ → List Cplx → RelocResult
  | 0, used, p => ⟨p, false, used⟩
  | Nat.succ fuel, used, p =>
    if poleDist (es p) p ≤ tol then ⟨p, true, used + 1⟩
    else relocLoop es tol fuel (used + 1) (es p)

/-- Modelled from the spec (§4.2): the Pole Relocation Engine.  The initial
poles are stabilised once on entry (an unstable seed is corrected on the first
iteration), then the iteration runs up to the configured cap. -/
def relocate (raw : List Cplx → List Cplx) (cfg : RelocCfg) (p0 : List Cplx) :
    RelocResult :=
  relocLoop (effStep raw) cfg.tol cfg.maxIter 0 (stabAll p0)

inductive PoleType where
  | real
  | complex
deriving DecidableEq, Repr

inductive Spacing where
  | lin
  | logSpaced
deriving DecidableEq, Repr

/-- Linear spacing of `n` frequency points over `[a, b]`, both ends included. -/
def linPoints (n : ℕ) (a b : ℚ) : List ℚ :=
  (List.range n).map fun k : ℕ =>
    if n ≤ 1 then a else a + (b - a) * (k : ℚ) / ((n - 1 : ℕ) : ℚ)

/-- Modelled from the spec (§4.1): logarithmic spacing over `[a, b]`.  A true
logarithmic grid has irrational points, which `ℚ` cannot represent; it is
modelled as a geometric (factor-2) ladder ending at `b`, which preserves the
count, ordering and positivity that the initialisation contract constrains. -/
def logPoints (n : ℕ) (_a b : ℚ) : List ℚ :=
  (List.range n).map fun k => b / 2 ^ (n - 1 - k)

def spacingPoints : Spacing → ℕ → ℚ → ℚ → List ℚ
  | Spacing.lin => linPoints
  | Spacing.logSpaced => logPoints

/-- Modelled from the spec (§4.1) and the notebooks: the Pole Initializer.
For `real` it places one real pole `-f` per spacing point; for `complex` it
places one conjugate-pair representative `-f/100 + i·f` per spacing point
(each representative stands for two poles, as documented in the notebooks:
`n_poles_init = 27` complex gives an initial model order `2·27 = 54`). -/
def initPoles (t : PoleType) (sp : Spacing) (n : ℕ) (fmin fmax : ℚ) : List Cplx :=
  match t with
  | PoleType.real => (spacingPoints sp n fmin fmax).map fun f => ⟨-f, 0⟩
  | PoleType.complex => (spacingPoints sp n fmin fmax).map fun f => ⟨-(f / 100), f⟩

/-- Number of poles represented by a pole list: a real entry counts one pole,
a conjugate-pair representative (nonzero imaginary part) counts two. -/
def poleCount (ps : List Cplx) : ℕ :=
  (ps.map fun p => if p.im = 0 then 1 else 2).sum

/-- Modelled from the spec (§4.3, §6): the pole-sharing configuration, either
one of the named shorthand modes or a custom integer label matrix. -/
inductive PoleSharing where
  | mimo
  | multiSISO
  | multiSIMO
  | multiMISO
  | custom (m : List (List ℤ))
deriving DecidableEq, Repr

/-- Modelled from the spec (§4.3): the label matrix induced by a sharing mode
on an `n × n` response grid.  `MIMO` uses a single label, `Multi-SISO` gives
every cell a distinct label, `Multi-SIMO` labels by column (input index),
`Multi-MISO` labels by row (output index). -/
def labelMatrix (n : ℕ) : PoleSharing → List (List ℤ)
  | PoleSharing.mimo => List.replicate n (List.replicate n 0)
  | PoleSharing.multiSISO =>
      (List.range n).map fun i : ℕ =>
        (List.range n).map fun j : ℕ => ((i * n + j : ℕ) : ℤ)
  | PoleSharing.multiSIMO =>
      (List.range n).map fun _i : ℕ => (List.range n).map fun j : ℕ => (j : ℤ)
  | PoleSharing.multiMISO =>
      (List.range n).map fun i : ℕ => (List.range n).map fun _j : ℕ => (i : ℤ)
  | PoleSharing.custom m => m

/-- All entries of a label matrix, in row-major order of appearance. -/
def matrixEntries (m : List (List ℤ)) : List ℤ := m.flatten

/-- Modelled from the spec (§4.3, §9 design note): the ordered distinct labels
of a matrix — the set of distinct labels sorted ascending. -/
def sortedLabels (m : List (List ℤ)) : List ℤ :=
  List.insertionSort (fun a b => a ≤ b) (matrixEntries m).dedup

/-- Cells `(output i, input j)` of the matrix carrying label `l`, in row-major
order. -/
def membersOf (m : List (List ℤ)) (l : ℤ) : List (ℕ × ℕ) :=
  (List.range m.length).flatMap fun i =>
    (List.range ((m.getD i []).length)).filterMap fun j =>
      if (m.getD i []).getD j 0 = l then some (i, j) else none

/-- Modelled from the spec (§4.3): the Pole Grouping Manager.  One group per
distinct label, ordered ascending by label value, each carrying its member
response cells. -/
def poleGroups (m : List (List ℤ)) : List (ℤ × List (ℕ × ℕ)) :=
  (sortedLabels m).map fun l => (l, membersOf m l)

/-- The induced partition: the ordered member lists of the groups. -/
def partitionOf (m : List (List ℤ)) : List (List (ℕ × ℕ)) :=
  (poleGroups m).map Prod.snd

/-- Modelled from the spec (§6 Response Dataset provider): an immutable
sampled frequency response.  `resp i j f` is the complex sample of response
`(i, j)` at frequency index `f`; indices beyond the advertised sizes are the
provider's responsibility and are read through total functions. -/
structure Dataset where
  nPorts : ℕ
  freqs : List ℚ
  resp : ℕ → ℕ → ℕ → Cplx

def fminOf (ds : Dataset) : ℚ := ds.freqs.headD 1

def fmaxOf (ds : Dataset) : ℚ := ds.freqs.getLastD 1

/-- Squared magnitudes of every in-range sample of the dataset. -/
def magSqList (ds : Dataset) : List ℚ :=
  (List.range ds.nPorts).flatMap fun i =>
    (List.range ds.nPorts).flatMap fun j =>
      (List.range ds.freqs.length).map fun f => Cplx.normSq (ds.resp i j f)

/-- Largest squared sample magnitude of the dataset (0 for an empty dataset). -/
def maxMagSq (ds : Dataset) : ℚ := (magSqList ds).foldr max 0

/-- Modelled from the spec (§4.4, §6): the weighting configuration — `uniform`,
`inverse_magnitude` with a magnitude floor, or an explicit weight array.
Because the least-squares objective only consumes squared weights, weights are
represented by their squares throughout (`1/|s|` itself is irrational).  The
floor is carried as a squared linear-scale factor relative to the dataset's
maximum magnitude (the spec's "dB-relative clip"; 0 dB corresponds to the
factor 1). -/
inductive Weighting where
  | uniform
  | invMag (floorFactorSq : ℚ)
  | explicitW (w : ℕ → ℕ → ℕ → ℚ)

/-- Modelled from the spec (§4.4): the Weighting Module.  `uniform` weights
every sample by 1; `inverse_magnitude` weights by `1/|s|²` (squared weights),
clipped so magnitudes below the floor receive the floor's weight; an explicit
array is passed through. -/
def weightsSqOf (ds : Dataset) : Weighting → (ℕ → ℕ → ℕ → ℚ)
  | Weighting.uniform => fun _ _ _ => 1
  | Weighting.invMag fSq =>
      fun i j f => (max (Cplx.normSq (ds.resp i j f)) (fSq * maxMagSq ds))⁻¹
  | Weighting.explicitW w => w

/-- Cramer-style solver for a square system `M x = b`: `x = det(M)⁻¹ · adj(M) b`
(the all-zero vector when `M` is singular, by the `ℚ` convention `0⁻¹ = 0`). -/
def solveSquare {k : ℕ} (m : Matrix (Fin k) (Fin k) ℚ) (b : Fin k → ℚ) : Fin k → ℚ :=
  m.det⁻¹ • (m.adjugate).mulVec b

/-- Modelled from the spec (§4.4, §2): the weighted linear least-squares
solve used by the fitting engine, via the normal equations
`(Aᵀ W A) x = Aᵀ W y` where `W` is the diagonal matrix of squared sample
weights. -/
def solveLS {mr k : ℕ} (a : Matrix (Fin mr) (Fin k) ℚ) (w : Fin mr → ℚ)
    (y : Fin mr → ℚ) : Fin k → ℚ :=
  solveSquare (a.transpose * Matrix.diagonal w * a)
    ((a.transpose * Matrix.diagonal w).mulVec y)

/-- Modelled from the spec (§3 Rational Model): the complex value of basis
column `c` of the residue-stage least-squares system at angular frequency `ω`:
columns `2k` and `2k+1` carry the real and imaginary residue components of
pole `k` through the partial fraction `1/(iω − pₖ)`, followed by two columns
for the complex constant term and two for the complex proportional term. -/
def colValR (poles : List Cplx) (ω : ℚ) (c : ℕ) : Cplx :=
  let np := poles.length
  if c < 2 * np then
    let φ := Cplx.inv (Cplx.sub ⟨0, ω⟩ (poles.getD (c / 2) 0))
    if c % 2 = 0 then φ else Cplx.iMul φ
  else if c = 2 * np then ⟨1, 0⟩
  else if c = 2 * np + 1 then ⟨0, 1⟩
  else if c = 2 * np + 2 then ⟨0, ω⟩
  else if c = 2 * np + 3 then ⟨-ω, 0⟩
  else 0

/-- Row decode for the per-group relocation system: row `r` belongs to member
`r / (2F)`, frequency index `(r % (2F)) / 2`, and carries the real part when
`r` is even within its pair and the imaginary part when odd. -/
def rowMember (flen r : ℕ) : ℕ := r / (2 * flen)

def rowFreq (flen r : ℕ) : ℕ := (r % (2 * flen)) / 2

def rowPart (flen r : ℕ) : ℕ := (r % (2 * flen)) % 2

/-- Modelled from the spec (§4.2): one entry of the pole-relocation
least-squares matrix for a pole group.  The first `2P + 4` columns are the
residue/constant/proportional basis; the last `2P` columns carry the auxiliary
scaling (sigma) function's residues, whose basis is `−y(s)/(iω − pₖ)` as in
the Sanathanan–Koerner reformulation.  Complex rows are split into real and
imaginary rows so that all arithmetic is real. -/
def stepEntry (ds : Dataset) (mem : List (ℕ × ℕ)) (poles : List Cplx)
    (r c : ℕ) : ℚ :=
  let flen := ds.freqs.length
  let ij := mem.getD (rowMember flen r) (0, 0)
  let f := rowFreq flen r
  let ω := ds.freqs.getD f 0
  let np := poles.length
  let z : Cplx :=
    if c < 2 * np + 4 then colValR poles ω c
    else
      let c' := c - (2 * np + 4)
      let φ := Cplx.inv (Cplx.sub ⟨0, ω⟩ (poles.getD (c' / 2) 0))
      let base := Cplx.neg (Cplx.mul (ds.resp ij.1 ij.2 f) φ)
      if c' % 2 = 0 then base else Cplx.iMul base
  if rowPart flen r = 0 then z.re else z.im

def stepMatrix (ds : Dataset) (mem : List (ℕ × ℕ)) (poles : List Cplx) :
    Matrix (Fin (mem.length * (2 * ds.freqs.length))) (Fin (4 * poles.length + 4)) ℚ :=
  Matrix.of fun r c => stepEntry ds mem poles r.val c.val

/-- Squared weight attached to a row of the group system. -/
def rowWeightSq (ds : Dataset) (ws : ℕ → ℕ → ℕ → ℚ) (mem : List (ℕ × ℕ))
    (r : ℕ) : ℚ :=
  ws (mem.getD (rowMember ds.freqs.length r) (0, 0)).1
    (mem.getD (rowMember ds.freqs.length r) (0, 0)).2
    (rowFreq ds.freqs.length r)

/-- Sampled response value carried by a row of the group system. -/
def rowY (ds : Dataset) (mem : List (ℕ × ℕ)) (r : ℕ) : ℚ :=
  if rowPart ds.freqs.length r = 0 then
    (ds.resp (mem.getD (rowMember ds.freqs.length r) (0, 0)).1
      (mem.getD (rowMember ds.freqs.length r) (0, 0)).2
      (rowFreq ds.freqs.length r)).re
  else
    (ds.resp (mem.getD (rowMember ds.freqs.length r) (0, 0)).1
      (mem.getD (rowMember ds.freqs.length r) (0, 0)).2
      (rowFreq ds.freqs.length r)).im

/-- Totalised read of a `Fin`-indexed solution vector. -/
def solAt {k : ℕ} (x : Fin k → ℚ) (c : ℕ) : ℚ :=
  if h : c < k then x ⟨c, h⟩ else 0

/-- Pole update from the solved system: each pole is shifted by the complex
sigma-function residue attached to it in the solution vector. -/
def sigmaShift (poles : List Cplx) (x : Fin (4 * poles.length + 4) → ℚ) :
    List Cplx :=
  (List.range poles.length).map fun k =>
    Cplx.sub (poles.getD k 0)
      ⟨solAt x (2 * poles.length + 4 + 2 * k),
        solAt x (2 * poles.length + 4 + 2 * k + 1)⟩

/-- Modelled from the spec (§4.2): the raw relocation step of one pole group.
It assembles the weighted least-squares system at the current poles, solves
it, and moves each pole by the sigma-function residue attached to it.  (The
exact zeros of the sigma function are an eigenvalue problem with irrational
solutions; the update is modelled as the sigma-residue-driven shift, keeping
the step a rational function of the same least-squares solution.) -/
def vfStep (ds : Dataset) (ws : ℕ → ℕ → ℕ → ℚ) (mem : List (ℕ × ℕ))
    (poles : List Cplx) : List Cplx :=
  sigmaShift poles
    (solveLS (stepMatrix ds mem poles)
      (fun r => rowWeightSq ds ws mem r.val) (fun r => rowY ds mem r.val))

/-- The residue-stage basis matrix for one response: rows are the real and
imaginary parts of each frequency sample, columns as in `colValR`. -/
def resMatrix (ds : Dataset) (poles : List Cplx) :
    Matrix (Fin (2 * ds.freqs.length)) (Fin (2 * poles.length + 4)) ℚ :=
  Matrix.of fun r c =>
    let z := colValR poles (ds.freqs.getD (r.val / 2) 0) c.val
    if r.val % 2 = 0 then z.re else z.im

/-- Modelled from the spec (§4.2): the final linear solve computing residues,
constant and proportional terms for each member response of a group, with no
further pole movement. -/
def residuesFor (ds : Dataset) (ws : ℕ → ℕ → ℕ → ℚ) (mem : List (ℕ × ℕ))
    (poles : List Cplx) : List (ℕ → ℚ) :=
  mem.map fun ij =>
    solAt (solveLS (resMatrix ds poles)
      (fun r => ws ij.1 ij.2 (r.val / 2))
      (fun r =>
        if r.val % 2 = 0 then (ds.resp ij.1 ij.2 (r.val / 2)).re
        else (ds.resp ij.1 ij.2 (r.val / 2)).im))

/-- Modelled from the spec (§4.3, §9): the broadcast-scalar-versus-per-group
rule for configuration parameters. -/
inductive BCast (α : Type) where
  | scalar (a : α)
  | perGroup (l : List α)
deriving DecidableEq, Repr

def bcGet {α : Type} (b : BCast α) (dflt : α) (k : ℕ) : α :=
  match b with
  | BCast.scalar a => a
  | BCast.perGroup l => l.getD k dflt

/-- Modelled from the spec (§6 Configuration surface): the fit configuration.
Pole count, type and spacing follow the broadcast rule per group. -/
structure FitCfg where
  nPolesInit : BCast ℕ
  polesInitType : BCast PoleType
  polesInitSpacing : BCast Spacing
  sharing : PoleSharing
  weighting : Weighting
  tol : ℚ
  maxIter : ℕ

/-- Per-group fit result: member cells, converged poles, convergence flag and
iteration count, and the solved coefficient vector of every member response. -/
structure GroupFit where
  members : List (ℕ × ℕ)
  poles : List Cplx
  converged : Bool
  iterations : ℕ
  coeffs : List (ℕ → ℚ)

/-- Modelled from the spec (§2, §4.2, §4.3): the grouped fitting pipeline.
Given the squared weights and a partition into pole groups, each group is
seeded by the Pole Initializer (broadcast rule on count/type/spacing),
relocated independently, and closed with the residue-stage solve; member
cells outside the dataset's port grid are dropped by the entry validation. -/
def vfCore (ds : Dataset) (ws : ℕ → ℕ → ℕ → ℚ) (np : BCast ℕ)
    (pt : BCast PoleType) (sp : BCast Spacing) (tol : ℚ) (maxIter : ℕ)
    (part : List (List (ℕ × ℕ))) : List GroupFit :=
  part.enum.map fun km =>
    let mem := km.2.filter fun ij =>
      decide (ij.1 < ds.nPorts) && decide (ij.2 < ds.nPorts)
    let p0 := initPoles (bcGet pt PoleType.real km.1) (bcGet sp Spacing.lin km.1)
      (bcGet np 3 km.1) (fminOf ds) (fmaxOf ds)
    let r := relocate (vfStep ds ws mem) ⟨tol, maxIter⟩ p0
    { members := mem
      poles := r.poles
      converged := r.converged
      iterations := r.iterations
      coeffs := residuesFor ds ws mem r.poles }

/-- Modelled from the spec (§2): `vector_fit` — groups from the pole-sharing
mode, weights from the weighting mode, then the grouped pipeline. -/
def vectorFit (ds : Dataset) (cfg : FitCfg) : List GroupFit :=
  vfCore ds (weightsSqOf ds cfg.weighting) cfg.nPolesInit cfg.polesInitType
    cfg.polesInitSpacing cfg.tol cfg.maxIter
    (partitionOf (labelMatrix ds.nPorts cfg.sharing))

/-- Modelled from the spec (§3 Rational Model, §6): the finalized pole-residue
model handed to the passivity machinery — one shared pole set, per-response
residues (aligned with the poles), complex constant and proportional terms,
and the upper edge of the originally sampled frequency band. -/
structure RModel where
  nPorts : ℕ
  poles : List Cplx
  residues : ℕ → ℕ → List Cplx
  const : ℕ → ℕ → Cplx
  prop : ℕ → ℕ → Cplx
  sampleFmax : ℚ
  budgetDefault : ℕ

/-- Modelled from the spec (§3 Rational Model): evaluation of one response at
angular frequency `ω`: the sum over poles of `r/(iω − p)` (plus the conjugate
term `r̄/(iω − p̄)` for a conjugate-pair representative), plus the constant,
plus proportional times `iω`. -/
def evalResp (m : RModel) (i j : ℕ) (ω : ℚ) : Cplx :=
  let s : Cplx := ⟨0, ω⟩
  let terms := (List.range m.poles.length).map fun k =>
    let p := m.poles.getD k 0
    let r := (m.residues i j).getD k 0
    let t := Cplx.mul r (Cplx.inv (Cplx.sub s p))
    if p.im = 0 then t
    else Cplx.add t (Cplx.mul (Cplx.conj r) (Cplx.inv (Cplx.sub s (Cplx.conj p))))
  Cplx.add (Cplx.add (terms.foldr Cplx.add 0) (m.const i j))
    (Cplx.mul (m.prop i j) s)

/-- The model's scattering matrix at angular frequency `ω`, as rows of rows. -/
def sMatrix (m : RModel) (ω : ℚ) : List (List Cplx) :=
  (List.range m.nPorts).map fun i => (List.range m.nPorts).map fun j =>
    evalResp m i j ω

/-- Fuel-indexed Laplace expansion determinant of a complex list matrix
(structural in the fuel so that it evaluates inside the kernel). -/
def detFuel : ℕ → List (List Cplx) → Cplx
  | 0, _ => 1
  | _ + 1, [] => 1
  | fuel + 1, r :: rest =>
    ((List.range r.length).map fun j =>
      let sign : Cplx := if j % 2 = 0 then 1 else ⟨-1, 0⟩
      Cplx.mul sign (Cplx.mul (r.getD j 0)
        (detFuel fuel (rest.map fun row => row.eraseIdx j)))).foldr Cplx.add 0

def detL (m : List (List Cplx)) : Cplx := detFuel m.length m

/-- The submatrix of `h` formed by the index list `s` (rows and columns). -/
def subMat (h : List (List Cplx)) (s : List ℕ) : List (List Cplx) :=
  s.map fun i => s.map fun j => (h.getD i []).getD j 0

/-- Modelled from the spec (§4.5, Glossary): the passivity violation test at a
single frequency.  The scattering matrix is contractive (largest singular
value at most 1) exactly when `I − SᴴS` is positive semidefinite, which for a
Hermitian matrix holds exactly when every principal minor is nonnegative; the
square-root-free criterion keeps the test decidable over `ℚ`. -/
def violAt (m : RModel) (ω : ℚ) : Bool :=
  let s := sMatrix m ω
  let n := m.nPorts
  let g : List (List Cplx) := (List.range n).map fun i => (List.range n).map fun j =>
    let e := ((List.range n).map fun k =>
      Cplx.mul (Cplx.conj ((s.getD k []).getD i 0)) ((s.getD k []).getD j 0)).foldr
      Cplx.add 0
    if i = j then Cplx.sub 1 e else Cplx.neg e
  !((List.range n).sublists.all fun idx => decide (0 ≤ (detL (subMat g idx)).re))

/-- Modelled from the spec (§4.5) and the notebooks: the candidate frequency
sweep of the Passivity Evaluator.  It starts at dc (frequency 0), covers the
sampled band, and continues beyond it up to twice the band's upper edge — the
documented violation band "from dc to 27.8 GHz" lies mostly below the ring
slot's sampled range. -/
def sweepOf (m : RModel) : List ℚ :=
  (List.range 21).map fun k : ℕ => (k : ℚ) * m.sampleFmax / 10

/-- Band accumulator: groups consecutive violating sweep frequencies into
`(start, end)` bands. -/
def bandsAux (v : ℚ → Bool) : List ℚ → Option (ℚ × ℚ) → List (ℚ × ℚ)
  | [], none => []
  | [], some b => [b]
  | f :: rest, none =>
    if v f then bandsAux v rest (some (f, f)) else bandsAux v rest none
  | f :: rest, some se =>
    if v f then bandsAux v rest (some (se.1, f))
    else (se.1, se.2) :: bandsAux v rest none

/-- Modelled from the spec (§3 Passivity Report, §4.5): the Passivity Report —
the ordered list of `(start, end)` frequency bands of the sweep on which the
model violates passivity; the empty list denotes a passive model. -/
def passivityTest (m : RModel) : List (ℚ × ℚ) :=
  bandsAux (violAt m) (sweepOf m) none

/-- Modelled from the spec (§4.5): the boolean passivity check — no sweep
frequency violates the singular-value bound. -/
def isPassive (m : RModel) : Bool :=
  (sweepOf m).all fun f => !(violAt m f)

/-- Modelled from the spec (§7): the Passivity Enforcer's fatal error, carrying
the iteration budget that was exhausted. -/
structure PassivityEnforcementError where
  iterationsUsed : ℕ
deriving DecidableEq, Repr

/-- Modelled from the spec (§4.6): one residue-perturbation round of the
Passivity Enforcer.  The exact constrained quadratic program is left open by
the spec (§9); it is modelled as a uniform damping of residues, constant and
proportional terms, a least-squares-flavoured correction that shrinks the
singular values while perturbing every coefficient as little as a uniform
step allows. -/
def dampModel (m : RModel) : RModel :=
  { m with
    residues := fun i j => (m.residues i j).map Cplx.half
    const := fun i j => Cplx.half (m.const i j)
    prop := fun i j => Cplx.half (m.prop i j) }

/-- Modelled from the spec (§4.6): the Passivity Enforcer loop.  Each round
re-evaluates the Passivity Report; an empty report returns the current model
as the corrected result, otherwise the perturbation is applied again until
the iteration budget is exhausted, which fails with
`PassivityEnforcementError`. -/
def enforceLoop : ℕ → ℕ → RModel → Except PassivityEnforcementError RModel
  | 0, used, m =>
    if passivityTest m = [] then Except.ok m else Except.error ⟨used⟩
  | fuel + 1, used, m =>
    if passivityTest m = [] then Except.ok m
    else enforceLoop fuel (used + 1) (dampModel m)

/-- Modelled from the spec (§4.6): `passivity_enforce` with the model's own
iteration budget. -/
def passivityEnforce (m : RModel) : Except PassivityEnforcementError RModel :=
  enforceLoop m.budgetDefault 0 m

/-- Concrete one-pole lists used to exhibit an oscillating relocation run. -/
def oscA : List Cplx := [⟨-1, 0⟩]

def oscB : List Cplx := [⟨-2, 0⟩]

/-- A raw relocation step that alternates between two stable pole lists — the
"two real poles behave like one conjugate pair" oscillation mode. -/
def rawOsc (p : List Cplx) : List Cplx := if p = oscA then oscB else oscA

/-- A raw relocation step that is already at its fixed point. -/
def rawConst (_p : List Cplx) : List Cplx := oscA

/-- A concrete two-port dataset with all-zero samples, used by witnesses. -/
def dsEx : Dataset where
  nPorts := 2
  freqs := [1, 2]
  resp := fun _ _ _ => ⟨0, 0⟩

/-- A concrete fit configuration used by witnesses. -/
def cfgEx : FitCfg where
  nPolesInit := BCast.scalar 2
  polesInitType := BCast.scalar PoleType.real
  polesInitSpacing := BCast.scalar Spacing.lin
  sharing := PoleSharing.mimo
  weighting := Weighting.uniform
  tol := 1 / 100
  maxIter := 2

/-- A concrete non-passive constant model (`S ≡ 2` on one port): its largest
singular value is 2 at every frequency, dc included. -/
def mEx : RModel where
  nPorts := 1
  poles := []
  residues := fun _ _ => []
  const := fun _ _ => ⟨2, 0⟩
  prop := fun _ _ => 0
  sampleFmax := 10
  budgetDefault := 10

theorem Cplx.normSq_nonneg (a : Cplx) : 0 ≤ Cplx.normSq a := by
  have h1 : 0 ≤ a.re * a.re := mul_self_nonneg _
  have h2 : 0 ≤ a.im * a.im := mul_self_nonneg _
  unfold Cplx.normSq
  linarith

theorem Cplx.eq_zero_of_normSq_eq_zero {a : Cplx} (h : Cplx.normSq a = 0) :
    a = ⟨0, 0⟩ := by
  unfold Cplx.normSq at h
  have h1 : 0 ≤ a.re * a.re := mul_self_nonneg _
  have h2 : 0 ≤ a.im * a.im := mul_self_nonneg _
  have hre : a.re = 0 := mul_self_eq_zero.mp (by linarith)
  have him : a.im = 0 := mul_self_eq_zero.mp (by linarith)
  cases a
  simp_all

theorem stabilizeRe_neg (x : ℚ) : stabilizeRe x < 0 := by
  unfold stabilizeRe
  split_ifs with h1 h2
  · exact h1
  · norm_num
  · push_neg at h1
    have : 0 < x := lt_of_le_of_ne h1 (Ne.symm h2)
    linarith

theorem stabilize_re_neg (p : Cplx) : (stabilize p).re < 0 := stabilizeRe_neg _

theorem stabilize_eq_self {p : Cplx} (h : p.re < 0) : stabilize p = p := by
  cases p with
  | mk re im => simp [stabilize, stabilizeRe, h]

theorem stabAll_eq_self {ps : List Cplx} (h : ∀ q ∈ ps, q.re < 0) :
    stabAll ps = ps := by
  induction ps with
  | nil => rfl
  | cons p tl ih =>
    simp only [stabAll, List.map_cons]
    rw [stabilize_eq_self (h p (by simp))]
    have := ih (fun q hq => h q (by simp [hq]))
    simp only [stabAll] at this
    rw [this]

theorem mem_effStep_re_neg (raw : List Cplx → List Cplx) (p : List Cplx)
    (q : Cplx) (hq : q ∈ effStep raw p) : q.re < 0 := by
  rcases List.mem_map.mp hq with ⟨a, _, rfl⟩
  exact stabilize_re_neg a

theorem mem_stabAll_re_neg (p : List Cplx) (q : Cplx) (hq : q ∈ stabAll p) :
    q.re < 0 := by
  rcases List.mem_map.mp hq with ⟨a, _, rfl⟩
  exact stabilize_re_neg a

theorem qabs_eq_abs (x : ℚ) : qabs x = |x| := by
  unfold qabs
  rcases lt_or_ge x 0 with h | h
  · rw [if_pos h, abs_of_neg h]
  · rw [if_neg (not_lt.mpr h), abs_of_nonneg h]

theorem qabs_sub_comm (x y : ℚ) : qabs (x - y) = qabs (y - x) := by
  rw [qabs_eq_abs, qabs_eq_abs, abs_sub_comm]

theorem poleDist_comm (a b : List Cplx) : poleDist a b = poleDist b a := by
  unfold poleDist
  rw [List.zipWith_comm_of_comm _
      (fun p q => by rw [qabs_sub_comm p.re, qabs_sub_comm p.im]),
    qabs_sub_comm]

theorem relocLoop_poles_stable (es : List Cplx → List Cplx)
    (hes : ∀ p q, q ∈ es p → q.re < 0) (tol : ℚ) (fuel used : ℕ)
    (p : List Cplx) (hp : ∀ q ∈ p, q.re < 0) :
    ∀ q ∈ (relocLoop es tol fuel used p).poles, q.re < 0 := by
  induction fuel generalizing used p with
  | zero => exact hp
  | succ fuel ih =>
    simp only [relocLoop]
    split
    · exact hp
    · exact ih (used + 1) (es p) (hes p)

theorem relocLoop_converged_dist (es : List Cplx → List Cplx) (tol : ℚ)
    (fuel used : ℕ) (p : List Cplx)
    (h : (relocLoop es tol fuel used p).converged = true) :
    poleDist (es (relocLoop es tol fuel used p).poles)
      (relocLoop es tol fuel used p).poles ≤ tol := by
  induction fuel generalizing used p with
  | zero => simp [relocLoop] at h
  | succ fuel ih =>
    simp only [relocLoop] at h ⊢
    split at h
    · next hle => simp only [if_pos hle]; exact hle
    · next hgt => rw [if_neg hgt]; exact ih (used + 1) (es p) h

theorem relocLoop_cap (es : List Cplx → List Cplx) (tol : ℚ)
    (fuel used : ℕ) (p : List Cplx)
    (h : (relocLoop es tol fuel used p).converged = false) :
    (relocLoop es tol fuel used p).poles = es^[fuel] p
      ∧ (relocLoop es tol fuel used p).iterations = used + fuel := by
  induction fuel generalizing used p with
  | zero => exact ⟨rfl, rfl⟩
  | succ fuel ih =>
    simp only [relocLoop] at h ⊢
    split at h
    · simp at h
    · next hgt =>
      rw [if_neg hgt]
      rcases ih (used + 1) (es p) h with ⟨h1, h2⟩
      refine ⟨?_, ?_⟩
      · rw [h1, Function.iterate_succ_apply]
      · rw [h2]; omega

theorem relocLoop_osc (es : List Cplx → List Cplx) (tol : ℚ)
    (fuel used : ℕ) (p : List Cplx) (hosc : es (es p) = p)
    (hmv : tol < poleDist (es p) p) :
    (relocLoop es tol fuel used p).converged = false := by
  induction fuel generalizing used p with
  | zero => rfl
  | succ fuel ih =>
    simp only [relocLoop]
    rw [if_neg (not_le.mpr hmv)]
    refine ih (used + 1) (es p) (congrArg es hosc) ?_
    rw [hosc, poleDist_comm]
    exact hmv

/-- Claim C9: stability invariant of the pole state — after every relocation
step every pole's real part is negative (the step clamps it so), and the pole
set returned by any relocation run satisfies the same invariant at every
iteration of every fit run. -/
theorem C9_pole_stability_invariant :
    (∀ (raw : List Cplx → List Cplx) (p : List Cplx) (q : Cplx),
        q ∈ effStep raw p → q.re < 0)
    ∧ (∀ (raw : List Cplx → List Cplx) (k : ℕ) (p : List Cplx) (q : Cplx),
        1 ≤ k → q ∈ (effStep raw)^[k] p → q.re < 0)
    ∧ (∀ (raw : List Cplx → List Cplx) (cfg : RelocCfg) (p0 : List Cplx) (q : Cplx),
        q ∈ (relocate raw cfg p0).poles → q.re < 0) := by
  refine ⟨mem_effStep_re_neg, ?_, ?_⟩
  · intro raw k p q hk hq
    rcases Nat.exists_eq_succ_of_ne_zero (by omega : k ≠ 0) with ⟨k', rfl⟩
    rw [Function.iterate_succ_apply'] at hq
    exact mem_effStep_re_neg raw _ q hq
  · intro raw cfg p0 q hq
    exact relocLoop_poles_stable (effStep raw) (mem_effStep_re_neg raw)
      cfg.tol cfg.maxIter 0 (stabAll p0) (mem_stabAll_re_neg p0) q hq

/-- Witness for C9 at a concrete step and pole list. -/
theorem C9_pole_stability_invariant_witness :
    (⟨-2, 0⟩ : Cplx) ∈ effStep rawOsc oscA ∧ (⟨-2, 0⟩ : Cplx).re < 0 :=
  ⟨by with_unfolding_all decide, C9_pole_stability_invariant.1 rawOsc oscA ⟨-2, 0⟩ (by with_unfolding_all decide)⟩

/-- Claim C4: the Pole Relocation Engine never fails or aborts on
non-convergence — it is a total function; whenever the convergence flag comes
back `false` the returned poles are the best-effort iterate after exactly the
configured iteration cap, and a run whose stabilised step oscillates with
period two and movement above tolerance is always reported non-converged. -/
theorem C4_relocation_never_fatal (raw : List Cplx → List Cplx)
    (cfg : RelocCfg) (p0 : List Cplx) :
    ((relocate raw cfg p0).converged = false →
      (relocate raw cfg p0).poles = (effStep raw)^[cfg.maxIter] (stabAll p0)
        ∧ (relocate raw cfg p0).iterations = cfg.maxIter)
    ∧ (effStep raw (effStep raw (stabAll p0)) = stabAll p0 →
        cfg.tol < poleDist (effStep raw (stabAll p0)) (stabAll p0) →
        (relocate raw cfg p0).converged = false) := by
  constructor
  · intro h
    have := relocLoop_cap (effStep raw) cfg.tol cfg.maxIter 0 (stabAll p0) h
    simpa [relocate] using this
  · intro hosc hmv
    exact relocLoop_osc (effStep raw) cfg.tol cfg.maxIter 0 (stabAll p0) hosc hmv

/-- Witness for C4: a concrete period-two oscillating run is reported
non-converged. -/
theorem C4_relocation_never_fatal_witness :
    ((relocate rawOsc ⟨1 / 100, 3⟩ oscA).poles
        = (effStep rawOsc)^[3] (stabAll oscA)
      ∧ (relocate rawOsc ⟨1 / 100, 3⟩ oscA).iterations = 3)
    ∧ (relocate rawOsc ⟨1 / 100, 3⟩ oscA).converged = false :=
  ⟨(C4_relocation_never_fatal rawOsc ⟨1 / 100, 3⟩ oscA).1
      (by with_unfolding_all decide),
    (C4_relocation_never_fatal rawOsc ⟨1 / 100, 3⟩ oscA).2
      (by with_unfolding_all decide) (by with_unfolding_all decide)⟩

/-- Claim C5: relocation is idempotent at a fixed point — feeding the
converged poles back in as initial poles terminates after a single iteration
with the same poles and flag, the first-iteration pole movement is within the
tolerance (approximately zero), the model order is unchanged, and the residue
stage therefore reproduces the same model. -/
theorem C5_relocation_idempotent (raw : List Cplx → List Cplx)
    (cfg : RelocCfg) (p0 : List Cplx)
    (h : (relocate raw cfg p0).converged = true) :
    relocate raw cfg ((relocate raw cfg p0).poles)
        = ⟨(relocate raw cfg p0).poles, true, 1⟩
      ∧ poleDist (effStep raw ((relocate raw cfg p0).poles))
          ((relocate raw cfg p0).poles) ≤ cfg.tol
      ∧ ∀ (ds : Dataset) (ws : ℕ → ℕ → ℕ → ℚ) (mem : List (ℕ × ℕ)),
          residuesFor ds ws mem
            ((relocate raw cfg ((relocate raw cfg p0).poles)).poles)
            = residuesFor ds ws mem ((relocate raw cfg p0).poles) := by
  have hdist := relocLoop_converged_dist (effStep raw) cfg.tol cfg.maxIter 0
    (stabAll p0) h
  have hstable : ∀ q ∈ (relocate raw cfg p0).poles, q.re < 0 :=
    relocLoop_poles_stable (effStep raw) (mem_effStep_re_neg raw) cfg.tol
      cfg.maxIter 0 (stabAll p0) (mem_stabAll_re_neg p0)
  have hfix : stabAll ((relocate raw cfg p0).poles) = (relocate raw cfg p0).poles :=
    stabAll_eq_self hstable
  have hre : relocate raw cfg ((relocate raw cfg p0).poles)
      = ⟨(relocate raw cfg p0).poles, true, 1⟩ := by
    cases hmi : cfg.maxIter with
    | zero =>
      exfalso
      unfold relocate at h
      rw [hmi] at h
      simp [relocLoop] at h
    | succ n =>
      unfold relocate at hfix hdist ⊢
      rw [hmi] at hfix hdist ⊢
      rw [hfix]
      generalize hP : (relocLoop (effStep raw) cfg.tol (n + 1) 0 (stabAll p0)).poles = P
      rw [hP] at hdist
      simp only [relocLoop]
      rw [if_pos hdist]
  refine ⟨hre, hdist, ?_⟩
  intro ds ws mem
  rw [hre]

/-- Witness for C5: a run that converges immediately, rerun from its converged
poles. -/
theorem C5_relocation_idempotent_witness :
    (relocate rawConst ⟨1 / 100, 5⟩ oscA).converged = true
      ∧ relocate rawConst ⟨1 / 100, 5⟩
            ((relocate rawConst ⟨1 / 100, 5⟩ oscA).poles)
          = ⟨(relocate rawConst ⟨1 / 100, 5⟩ oscA).poles, true, 1⟩ :=
  ⟨by with_unfolding_all decide,
    (C5_relocation_idempotent rawConst ⟨1 / 100, 5⟩ oscA (by with_unfolding_all decide)).1⟩

theorem bandsAux_some_ne_nil (v : ℚ → Bool) (l : List ℚ) (b : ℚ × ℚ) :
    bandsAux v l (some b) ≠ [] := by
  induction l generalizing b with
  | nil => simp [bandsAux]
  | cons f rest ih =>
    simp only [bandsAux]
    split
    · exact ih _
    · simp

theorem all_not_viol_iff_bands_nil (v : ℚ → Bool) (l : List ℚ) :
    (l.all fun f => !v f) = true ↔ bandsAux v l none = [] := by
  induction l with
  | nil => simp [bandsAux]
  | cons f rest ih =>
    cases hv : v f with
    | true =>
      constructor
      · intro h
        simp [List.all_cons, hv] at h
      · intro h
        simp only [bandsAux, hv, if_pos] at h
        exact absurd h (bandsAux_some_ne_nil v rest (f, f))
    | false =>
      simp only [List.all_cons, hv, Bool.not_false, Bool.true_and]
      simp only [bandsAux, hv]
      simpa using ih

/-- Claim C6: for every fitted model the boolean `is_passive` check returns
true exactly when the Passivity Report — the ordered sequence of violation
bands — is empty. -/
theorem C6_is_passive_iff_report_empty (m : RModel) :
    isPassive m = true ↔ passivityTest m = [] := by
  unfold isPassive passivityTest
  exact all_not_viol_iff_bands_nil (violAt m) (sweepOf m)

theorem enforceLoop_ok_or_error (fuel used : ℕ) (m : RModel) :
    (∃ m2, enforceLoop fuel used m = Except.ok m2 ∧ passivityTest m2 = [])
      ∨ (∃ e, enforceLoop fuel used m = Except.error e) := by
  induction fuel generalizing used m with
  | zero =>
    by_cases h : passivityTest m = []
    · exact Or.inl ⟨m, by simp [enforceLoop, h], h⟩
    · exact Or.inr ⟨⟨used⟩, by simp [enforceLoop, h]⟩
  | succ fuel ih =>
    by_cases h : passivityTest m = []
    · exact Or.inl ⟨m, by simp [enforceLoop, h], h⟩
    · have hstep : enforceLoop (fuel + 1) used m
          = enforceLoop fuel (used + 1) (dampModel m) := by
        simp [enforceLoop, h]
      rw [hstep]
      exact ih (used + 1) (dampModel m)

/-- Claim C1: for every model (in particular every non-passive fitted model),
the Passivity Enforcer either returns a corrected model whose re-evaluated
Passivity Report is empty, or fails with a `PassivityEnforcementError`; it can
never return a still-non-passive model as a successful result. -/
theorem C1_enforcer_passive_or_error (m : RModel) :
    (∃ m2, passivityEnforce m = Except.ok m2 ∧ passivityTest m2 = [])
      ∨ (∃ e : PassivityEnforcementError, passivityEnforce m = Except.error e) := by
  unfold passivityEnforce
  exact enforceLoop_ok_or_error m.budgetDefault 0 m

/-- Claim C10: passivity evaluation is not restricted to the sampled band —
the evaluator's sweep always contains dc (frequency 0) and frequencies above
the sampled band's upper edge, and a concrete non-passive model's report
starts with a band beginning at 0. -/
theorem C10_out_of_band_evaluation :
    (∀ m : RModel, (0 : ℚ) ∈ sweepOf m)
    ∧ (∀ m : RModel, 0 < m.sampleFmax → ∃ f ∈ sweepOf m, m.sampleFmax < f)
    ∧ (passivityTest mEx).head? = some (0, 20) := by
  refine ⟨?_, ?_, ?_⟩
  · intro m
    unfold sweepOf
    have h0 : (0 : ℚ) = ((0 : ℕ) : ℚ) * m.sampleFmax / 10 := by norm_num
    rw [h0]
    exact List.mem_map_of_mem _ (List.mem_range.mpr (by norm_num))
  · intro m hm
    unfold sweepOf
    refine ⟨((20 : ℕ) : ℚ) * m.sampleFmax / 10,
      List.mem_map_of_mem _ (List.mem_range.mpr (by norm_num)), ?_⟩
    push_cast
    linarith
  · with_unfolding_all decide

/-- Witness for C10 at the concrete example model. -/
theorem C10_out_of_band_evaluation_witness :
    0 < mEx.sampleFmax ∧ ∃ f ∈ sweepOf mEx, mEx.sampleFmax < f :=
  ⟨by norm_num [mEx],
    C10_out_of_band_evaluation.2.1 mEx (by norm_num [mEx])⟩

theorem sum_map_const_nat {α : Type} (l : List α) (c : ℕ) :
    (l.map fun _ => c).sum = c * l.length := by
  induction l with
  | nil => simp
  | cons a tl ih => simp [ih]; ring

theorem length_spacingPoints (sp : Spacing) (n : ℕ) (a b : ℚ) :
    (spacingPoints sp n a b).length = n := by
  cases sp with
  | lin =>
    show (linPoints n a b).length = n
    unfold linPoints
    rw [List.length_map, List.length_range]
  | logSpaced =>
    show (logPoints n a b).length = n
    unfold logPoints
    rw [List.length_map, List.length_range]

theorem pos_of_mem_spacingPoints {sp : Spacing} {n : ℕ} {a b f : ℚ}
    (ha : 0 < a) (hab : a ≤ b) (hf : f ∈ spacingPoints sp n a b) : 0 < f := by
  cases sp with
  | lin =>
    have hf2 : f ∈ linPoints n a b := hf
    unfold linPoints at hf2
    rcases List.mem_map.mp hf2 with ⟨k, _, rfl⟩
    split
    · exact ha
    · have hk : (0 : ℚ) ≤ (k : ℚ) := Nat.cast_nonneg k
      have hnn : (0 : ℚ) ≤ ((n - 1 : ℕ) : ℚ) := Nat.cast_nonneg _
      have : (0 : ℚ) ≤ (b - a) * k / ((n - 1 : ℕ) : ℚ) :=
        div_nonneg (mul_nonneg (by linarith) hk) hnn
      linarith
  | logSpaced =>
    have hf2 : f ∈ logPoints n a b := hf
    unfold logPoints at hf2
    rcases List.mem_map.mp hf2 with ⟨k, _, rfl⟩
    have hb : 0 < b := lt_of_lt_of_le ha hab
    exact div_pos hb (pow_pos (by norm_num) _)

/-- Counterexample to claim C2 as stated: requesting 2 poles of complex type
produces 2 conjugate-pair representatives, i.e. 4 poles (model order 4), not
2 — matching the notebooks, where `n_poles_init = 27` complex yields an
initial model order of `2·27 = 54`. -/
theorem C2_pole_count_counterexample :
    poleCount (initPoles PoleType.complex Spacing.lin 2 1 2) = 4
      ∧ (4 : ℕ) ≠ 2 := by
  constructor
  · with_unfolding_all decide
  · decide

/-- Claim C2 (amended): for every valid Pole Initializer configuration with
requested count `n` over a positive frequency span, the produced ordered pole
set has `n` poles for `real` type, and `n` conjugate-pair representatives —
counting `2·n` poles, hence model order `2·n` — for `complex` type. -/
theorem C2_pole_count_amended (sp : Spacing) (n : ℕ) (a b : ℚ) :
    poleCount (initPoles PoleType.real sp n a b) = n
    ∧ (0 < a → a ≤ b →
        poleCount (initPoles PoleType.complex sp n a b) = 2 * n) := by
  constructor
  · unfold poleCount initPoles
    rw [List.map_map]
    have : ((fun p : Cplx => if p.im = 0 then 1 else 2)
        ∘ fun f : ℚ => (⟨-f, 0⟩ : Cplx)) = fun _ => (1 : ℕ) := by
      funext f; simp
    rw [this, sum_map_const_nat, length_spacingPoints, one_mul]
  · intro ha hab
    unfold poleCount initPoles
    rw [List.map_map]
    have hcongr : ∀ f ∈ spacingPoints sp n a b,
        ((fun p : Cplx => if p.im = 0 then 1 else 2)
          ∘ fun f : ℚ => (⟨-(f / 100), f⟩ : Cplx)) f = (fun _ => (2 : ℕ)) f := by
      intro f hf
      have : 0 < f := pos_of_mem_spacingPoints ha hab hf
      simp [ne_of_gt this]
    rw [List.map_congr_left hcongr, sum_map_const_nat, length_spacingPoints]

/-- Witness for the amended C2 on a concrete configuration. -/
theorem C2_pole_count_amended_witness :
    0 < (1 : ℚ) ∧ (1 : ℚ) ≤ 2
      ∧ poleCount (initPoles PoleType.complex Spacing.lin 3 1 2) = 2 * 3 :=
  ⟨by norm_num, by norm_num,
    (C2_pole_count_amended Spacing.lin 3 1 2).2 (by norm_num) (by norm_num)⟩

theorem flatMap_congr_fun {α β : Type} (l : List α) {f g : α → List β}
    (h : ∀ a ∈ l, f a = g a) : l.flatMap f = l.flatMap g := by
  induction l with
  | nil => rfl
  | cons a tl ih =>
    simp only [List.flatMap_cons]
    rw [h a (by simp), ih fun x hx => h x (by simp [hx])]

theorem getD_map_lists (φ : ℤ → ℤ) (M : List (List ℤ)) (i : ℕ) :
    (M.map (List.map φ)).getD i [] = List.map φ (M.getD i []) := by
  induction M generalizing i with
  | nil => cases i <;> simp
  | cons r tl ih =>
    cases i with
    | zero => simp
    | succ n => simpa using ih n

theorem getD_map_row (φ : ℤ → ℤ) (row : List ℤ) (j : ℕ) (h : j < row.length) :
    (row.map φ).getD j 0 = φ (row.getD j 0) := by
  induction row generalizing j with
  | nil => simp at h
  | cons a tl ih =>
    cases j with
    | zero => simp
    | succ n =>
      simp only [List.map_cons, List.getD_cons_succ]
      exact ih n (by simpa using h)

theorem membersOf_map (φ : ℤ → ℤ) (hφ : Function.Injective φ)
    (M : List (List ℤ)) (l : ℤ) :
    membersOf (M.map (List.map φ)) (φ l) = membersOf M l := by
  unfold membersOf
  rw [List.length_map]
  apply flatMap_congr_fun
  intro i _hi
  rw [getD_map_lists, List.length_map]
  apply List.filterMap_congr
  intro j hj
  have hjlt : j < (M.getD i []).length := List.mem_range.mp hj
  rw [getD_map_row φ _ j hjlt]
  by_cases hc : (M.getD i []).getD j 0 = l
  · rw [if_pos hc, if_pos (by rw [hc])]
  · rw [if_neg hc, if_neg fun hcc => hc (hφ hcc)]

theorem sortedLabels_map (φ : ℤ → ℤ) (hm : StrictMono φ) (M : List (List ℤ)) :
    sortedLabels (M.map (List.map φ)) = (sortedLabels M).map φ := by
  unfold sortedLabels matrixEntries
  rw [show (M.map (List.map φ)).flatten = (M.flatten).map φ from
    (List.map_flatten φ M).symm]
  rw [List.dedup_map_of_injective hm.injective]
  have hs1 : List.Sorted (fun a b : ℤ => a ≤ b)
      (List.insertionSort (fun a b : ℤ => a ≤ b) ((M.flatten).dedup.map φ)) :=
    List.sorted_insertionSort _ _
  have hs2 : List.Sorted (fun a b : ℤ => a ≤ b)
      ((List.insertionSort (fun a b : ℤ => a ≤ b) (M.flatten).dedup).map φ) :=
    List.Pairwise.map φ (fun a b h => hm.monotone h)
      (List.sorted_insertionSort _ _)
  exact List.eq_of_perm_of_sorted
    ((List.perm_insertionSort _ _).trans ((List.perm_insertionSort _ _).map φ).symm)
    hs1 hs2

theorem poleGroups_map_fst (M : List (List ℤ)) :
    (poleGroups M).map Prod.fst = sortedLabels M := by
  unfold poleGroups
  rw [List.map_map]
  rw [show (Prod.fst ∘ fun l : ℤ => (l, membersOf M l)) = id from rfl, List.map_id]

/-- Claim C7: the Pole Grouping Manager's group ordering is deterministic —
the group labels are exactly the distinct labels of the matrix, strictly
ascending by label value, and any strictly monotone relabeling (changing the
labels' numeric magnitudes while keeping their order) leaves the ordered
member partition unchanged. -/
theorem C7_group_ordering_deterministic (M : List (List ℤ)) :
    List.Pairwise (fun a b : ℤ => a < b) ((poleGroups M).map Prod.fst)
    ∧ (∀ l : ℤ, l ∈ (poleGroups M).map Prod.fst ↔ l ∈ matrixEntries M)
    ∧ ∀ φ : ℤ → ℤ, StrictMono φ →
        (poleGroups (M.map (List.map φ))).map Prod.snd
          = (poleGroups M).map Prod.snd := by
  refine ⟨?_, ?_, ?_⟩
  · rw [poleGroups_map_fst]
    have hsorted : List.Sorted (fun a b : ℤ => a ≤ b) (sortedLabels M) :=
      List.sorted_insertionSort _ _
    have hnodup : (sortedLabels M).Nodup :=
      (List.perm_insertionSort _ _).nodup_iff.mpr (List.nodup_dedup _)
    exact List.Sorted.lt_of_le hsorted hnodup
  · intro l
    rw [poleGroups_map_fst]
    unfold sortedLabels
    rw [List.mem_insertionSort, List.mem_dedup]
  · intro φ hφ
    unfold poleGroups
    rw [sortedLabels_map φ hφ M]
    simp only [List.map_map]
    apply List.map_congr_left
    intro l _
    simp only [Function.comp]
    exact membersOf_map φ hφ.injective M l

/-- Witness for C7: a concrete strictly monotone relabeling leaves a concrete
matrix's member partition unchanged. -/
theorem C7_group_ordering_deterministic_witness :
    StrictMono (fun x : ℤ => 3 * x)
    ∧ (poleGroups ([[5, 3], [3, 9]].map (List.map fun x : ℤ => 3 * x))).map Prod.snd
        = (poleGroups [[5, 3], [3, 9]]).map Prod.snd :=
  have hm : StrictMono (fun x : ℤ => 3 * x) := fun a b h => by dsimp; omega
  ⟨hm, (C7_group_ordering_deterministic [[5, 3], [3, 9]]).2.2 _ hm⟩

/-- Claim C3: fitting with a custom pole-group label matrix whose induced
partition (ordered member lists in ascending-label order) equals that of a
named pole-sharing mode produces a model identical to fitting with the named
mode, all other parameters (pole counts per group included) equal — the fit
depends on the pole-sharing configuration only through the induced
partition. -/
theorem C3_custom_matrix_matches_named_mode (ds : Dataset) (c : FitCfg)
    (m : List (List ℤ)) (md : PoleSharing)
    (h : partitionOf (labelMatrix ds.nPorts (PoleSharing.custom m))
        = partitionOf (labelMatrix ds.nPorts md)) :
    vectorFit ds { c with sharing := PoleSharing.custom m }
      = vectorFit ds { c with sharing := md } := by
  have hvf : ∀ ps : PoleSharing, vectorFit ds { c with sharing := ps }
      = vfCore ds (weightsSqOf ds c.weighting) c.nPolesInit c.polesInitType
          c.polesInitSpacing c.tol c.maxIter
          (partitionOf (labelMatrix ds.nPorts ps)) := fun _ => rfl
  rw [hvf, hvf, h]

/-- Witness for C3: the notebook's custom matrix `[[1,1],[2,2]]` replicates
`Multi-MISO` on a two-port dataset. -/
theorem C3_custom_matrix_matches_named_mode_witness :
    partitionOf (labelMatrix dsEx.nPorts (PoleSharing.custom [[1, 1], [2, 2]]))
        = partitionOf (labelMatrix dsEx.nPorts PoleSharing.multiMISO)
    ∧ vectorFit dsEx { cfgEx with sharing := PoleSharing.custom [[1, 1], [2, 2]] }
        = vectorFit dsEx { cfgEx with sharing := PoleSharing.multiMISO } :=
  ⟨by decide,
    C3_custom_matrix_matches_named_mode dsEx cfgEx [[1, 1], [2, 2]]
      PoleSharing.multiMISO (by decide)⟩

theorem solveSquare_smul {k : ℕ} (t : ℚ) (ht : t ≠ 0)
    (m : Matrix (Fin k) (Fin k) ℚ) (b : Fin k → ℚ) :
    solveSquare (t • m) (t • b) = solveSquare m b := by
  cases k with
  | zero => funext i; exact i.elim0
  | succ n =>
    unfold solveSquare
    rw [Matrix.det_smul, Matrix.adjugate_smul, Matrix.smul_mulVec_assoc,
      Matrix.mulVec_smul, Fintype.card_fin]
    rw [smul_smul, smul_smul]
    congr 1
    have hp : t ^ (n + 1) ≠ 0 := pow_ne_zero _ ht
    have hstep : t ^ (n + 1 - 1) * t = t ^ (n + 1) := by
      rw [Nat.add_sub_cancel, ← pow_succ]
    rw [mul_assoc, hstep]
    rcases eq_or_ne m.det 0 with hd | hd
    · rw [hd]
      simp
    · rw [mul_inv]
      field_simp

theorem solveSquare_zero {k : ℕ} (m : Matrix (Fin k) (Fin k) ℚ) :
    solveSquare m 0 = 0 := by
  unfold solveSquare
  rw [Matrix.mulVec_zero, smul_zero]

theorem solveLS_smul {mr k : ℕ} (t : ℚ) (ht : t ≠ 0)
    (a : Matrix (Fin mr) (Fin k) ℚ) (w y : Fin mr → ℚ) :
    solveLS a (t • w) y = solveLS a w y := by
  unfold solveLS
  rw [Matrix.diagonal_smul, Matrix.mul_smul, Matrix.smul_mul,
    Matrix.smul_mulVec_assoc]
  exact solveSquare_smul t ht _ _

theorem solveLS_zero_y {mr k : ℕ} (a : Matrix (Fin mr) (Fin k) ℚ)
    (w : Fin mr → ℚ) : solveLS a w 0 = 0 := by
  unfold solveLS
  rw [Matrix.mulVec_zero]
  exact solveSquare_zero _

theorem getD_mem_of_lt {α : Type} (l : List α) (n : ℕ) (d : α)
    (h : n < l.length) : l.getD n d ∈ l := by
  rw [List.getD_eq_getElem?_getD, List.getElem?_eq_getElem h]
  simp only [Option.getD_some]
  exact List.getElem_mem h

theorem le_foldr_max {x : ℚ} {l : List ℚ} (b : ℚ) (hx : x ∈ l) :
    x ≤ l.foldr max b := by
  induction l with
  | nil => simp at hx
  | cons a tl ih =>
    rcases List.mem_cons.mp hx with rfl | h
    · exact le_max_left _ _
    · exact le_trans (ih h) (le_max_right _ _)

theorem normSq_mem_magSqList (ds : Dataset) {i j f : ℕ} (hi : i < ds.nPorts)
    (hj : j < ds.nPorts) (hf : f < ds.freqs.length) :
    Cplx.normSq (ds.resp i j f) ∈ magSqList ds := by
  unfold magSqList
  refine List.mem_flatMap.mpr ⟨i, List.mem_range.mpr hi, ?_⟩
  refine List.mem_flatMap.mpr ⟨j, List.mem_range.mpr hj, ?_⟩
  exact List.mem_map_of_mem _ (List.mem_range.mpr hf)

theorem normSq_le_maxMagSq (ds : Dataset) {i j f : ℕ} (hi : i < ds.nPorts)
    (hj : j < ds.nPorts) (hf : f < ds.freqs.length) :
    Cplx.normSq (ds.resp i j f) ≤ maxMagSq ds :=
  le_foldr_max 0 (normSq_mem_magSqList ds hi hj hf)

theorem resp_zero_of_maxMagSq_zero (ds : Dataset) (hM : maxMagSq ds = 0)
    {i j f : ℕ} (hi : i < ds.nPorts) (hj : j < ds.nPorts)
    (hf : f < ds.freqs.length) : ds.resp i j f = ⟨0, 0⟩ := by
  have h1 := normSq_le_maxMagSq ds hi hj hf
  rw [hM] at h1
  exact Cplx.eq_zero_of_normSq_eq_zero
    (le_antisymm h1 (Cplx.normSq_nonneg _))

theorem rowMember_lt {flen nm : ℕ} (r : ℕ) (hF : 0 < flen)
    (hr : r < nm * (2 * flen)) : rowMember flen r < nm := by
  unfold rowMember
  exact (Nat.div_lt_iff_lt_mul (by omega)).mpr hr

theorem rowFreq_lt {flen : ℕ} (r : ℕ) (hF : 0 < flen) :
    rowFreq flen r < flen := by
  unfold rowFreq
  have h1 : r % (2 * flen) < 2 * flen := Nat.mod_lt _ (by omega)
  omega

theorem vfStep_ws_congr (ds : Dataset) (t : ℚ) (ht : t ≠ 0)
    (ws ws2 : ℕ → ℕ → ℕ → ℚ)
    (hss : ∀ i j f, i < ds.nPorts → j < ds.nPorts → f < ds.freqs.length →
      ws2 i j f = t * ws i j f)
    (mem : List (ℕ × ℕ))
    (hmem : ∀ ij ∈ mem, ij.1 < ds.nPorts ∧ ij.2 < ds.nPorts) :
    vfStep ds ws2 mem = vfStep ds ws mem := by
  funext poles
  unfold vfStep
  have hw : (fun r : Fin (mem.length * (2 * ds.freqs.length)) =>
        rowWeightSq ds ws2 mem r.val)
      = t • fun r : Fin (mem.length * (2 * ds.freqs.length)) =>
          rowWeightSq ds ws mem r.val := by
    funext r
    have hr := r.isLt
    by_cases hF : ds.freqs.length = 0
    · exfalso
      have h0 : mem.length * (2 * ds.freqs.length) = 0 := by rw [hF]; simp
      omega
    · have hFpos : 0 < ds.freqs.length := Nat.pos_of_ne_zero hF
      have hm : rowMember ds.freqs.length r.val < mem.length :=
        rowMember_lt r.val hFpos hr
      have hfr : rowFreq ds.freqs.length r.val < ds.freqs.length :=
        rowFreq_lt r.val hFpos
      have hij := hmem _ (getD_mem_of_lt mem _ (0, 0) hm)
      unfold rowWeightSq
      simp only [Pi.smul_apply, smul_eq_mul]
      exact hss _ _ _ hij.1 hij.2 hfr
  rw [hw, solveLS_smul t ht]

theorem residuesFor_ws_congr (ds : Dataset) (t : ℚ) (ht : t ≠ 0)
    (ws ws2 : ℕ → ℕ → ℕ → ℚ)
    (hss : ∀ i j f, i < ds.nPorts → j < ds.nPorts → f < ds.freqs.length →
      ws2 i j f = t * ws i j f)
    (mem : List (ℕ × ℕ))
    (hmem : ∀ ij ∈ mem, ij.1 < ds.nPorts ∧ ij.2 < ds.nPorts)
    (poles : List Cplx) :
    residuesFor ds ws2 mem poles = residuesFor ds ws mem poles := by
  unfold residuesFor
  apply List.map_congr_left
  intro ij hij
  have hb := hmem ij hij
  have hw : (fun r : Fin (2 * ds.freqs.length) => ws2 ij.1 ij.2 (r.val / 2))
      = t • fun r : Fin (2 * ds.freqs.length) => ws ij.1 ij.2 (r.val / 2) := by
    funext r
    have hr := r.isLt
    have hf2 : r.val / 2 < ds.freqs.length := by omega
    simp only [Pi.smul_apply, smul_eq_mul]
    exact hss _ _ _ hb.1 hb.2 hf2
  rw [hw, solveLS_smul t ht]

theorem vfStep_zero_data (ds : Dataset)
    (hz : ∀ i j f, i < ds.nPorts → j < ds.nPorts → f < ds.freqs.length →
      ds.resp i j f = ⟨0, 0⟩)
    (ws ws2 : ℕ → ℕ → ℕ → ℚ) (mem : List (ℕ × ℕ))
    (hmem : ∀ ij ∈ mem, ij.1 < ds.nPorts ∧ ij.2 < ds.nPorts) :
    vfStep ds ws2 mem = vfStep ds ws mem := by
  funext poles
  unfold vfStep
  have hy : (fun r : Fin (mem.length * (2 * ds.freqs.length)) =>
      rowY ds mem r.val) = 0 := by
    funext r
    have hr := r.isLt
    by_cases hF : ds.freqs.length = 0
    · exfalso
      have h0 : mem.length * (2 * ds.freqs.length) = 0 := by rw [hF]; simp
      omega
    · have hFpos : 0 < ds.freqs.length := Nat.pos_of_ne_zero hF
      have hm : rowMember ds.freqs.length r.val < mem.length :=
        rowMember_lt r.val hFpos hr
      have hfr : rowFreq ds.freqs.length r.val < ds.freqs.length :=
        rowFreq_lt r.val hFpos
      have hij := hmem _ (getD_mem_of_lt mem _ (0, 0) hm)
      unfold rowY
      rw [hz _ _ _ hij.1 hij.2 hfr]
      simp only [Pi.zero_apply]
      split <;> rfl
  rw [hy, solveLS_zero_y, solveLS_zero_y]

theorem residuesFor_zero_data (ds : Dataset)
    (hz : ∀ i j f, i < ds.nPorts → j < ds.nPorts → f < ds.freqs.length →
      ds.resp i j f = ⟨0, 0⟩)
    (ws ws2 : ℕ → ℕ → ℕ → ℚ) (mem : List (ℕ × ℕ))
    (hmem : ∀ ij ∈ mem, ij.1 < ds.nPorts ∧ ij.2 < ds.nPorts)
    (poles : List Cplx) :
    residuesFor ds ws2 mem poles = residuesFor ds ws mem poles := by
  unfold residuesFor
  apply List.map_congr_left
  intro ij hij
  have hb := hmem ij hij
  have hy : (fun r : Fin (2 * ds.freqs.length) =>
      if r.val % 2 = 0 then (ds.resp ij.1 ij.2 (r.val / 2)).re
      else (ds.resp ij.1 ij.2 (r.val / 2)).im) = 0 := by
    funext r
    have hr := r.isLt
    have hf2 : r.val / 2 < ds.freqs.length := by omega
    rw [hz _ _ _ hb.1 hb.2 hf2]
    simp only [Pi.zero_apply]
    split <;> rfl
  rw [hy, solveLS_zero_y, solveLS_zero_y]

theorem mem_filter_grid (ds : Dataset) (mem0 : List (ℕ × ℕ)) :
    ∀ ij ∈ mem0.filter fun ij =>
      decide (ij.1 < ds.nPorts) && decide (ij.2 < ds.nPorts),
      ij.1 < ds.nPorts ∧ ij.2 < ds.nPorts := by
  intro ij hij
  have h := (List.mem_filter.mp hij).2
  rcases Bool.and_eq_true_iff.mp h with ⟨h1, h2⟩
  exact ⟨of_decide_eq_true h1, of_decide_eq_true h2⟩

theorem vfCore_ws_congr (ds : Dataset) (ws ws2 : ℕ → ℕ → ℕ → ℚ)
    (np : BCast ℕ) (pt : BCast PoleType) (sp : BCast Spacing) (tol : ℚ)
    (maxIter : ℕ) (part : List (List (ℕ × ℕ)))
    (hstep : ∀ mem : List (ℕ × ℕ),
      (∀ ij ∈ mem, ij.1 < ds.nPorts ∧ ij.2 < ds.nPorts) →
      vfStep ds ws2 mem = vfStep ds ws mem)
    (hres : ∀ (mem : List (ℕ × ℕ)),
      (∀ ij ∈ mem, ij.1 < ds.nPorts ∧ ij.2 < ds.nPorts) →
      ∀ poles, residuesFor ds ws2 mem poles = residuesFor ds ws mem poles) :
    vfCore ds ws2 np pt sp tol maxIter part
      = vfCore ds ws np pt sp tol maxIter part := by
  unfold vfCore
  apply List.map_congr_left
  intro km _
  have hmem := mem_filter_grid ds km.2
  dsimp only
  rw [hstep _ hmem, hres _ hmem]

/-- Claim C8: for every dataset and configuration, fitting with
`inverse_magnitude` weighting under a magnitude floor of 0 dB (squared floor
factor 1, i.e. the clip level is the dataset's maximum magnitude) produces
exactly the same result as fitting with `uniform` weighting, all other
parameters equal: the floored weights are a constant multiple of the uniform
ones and the least-squares solves are invariant under that scaling. -/
theorem C8_floor0_weighting_equals_uniform (ds : Dataset) (c : FitCfg) :
    vectorFit ds { c with weighting := Weighting.invMag 1 }
      = vectorFit ds { c with weighting := Weighting.uniform } := by
  have hvf : ∀ w : Weighting, vectorFit ds { c with weighting := w }
      = vfCore ds (weightsSqOf ds w) c.nPolesInit c.polesInitType
          c.polesInitSpacing c.tol c.maxIter
          (partitionOf (labelMatrix ds.nPorts c.sharing)) := fun _ => rfl
  rw [hvf, hvf]
  by_cases hM : maxMagSq ds = 0
  · have hz : ∀ i j f, i < ds.nPorts → j < ds.nPorts →
        f < ds.freqs.length → ds.resp i j f = ⟨0, 0⟩ :=
      fun i j f hi hj hf => resp_zero_of_maxMagSq_zero ds hM hi hj hf
    exact vfCore_ws_congr ds _ _ _ _ _ _ _ _
      (fun mem hmem => vfStep_zero_data ds hz _ _ mem hmem)
      (fun mem hmem poles => residuesFor_zero_data ds hz _ _ mem hmem poles)
  · have hss : ∀ i j f, i < ds.nPorts → j < ds.nPorts →
        f < ds.freqs.length →
        weightsSqOf ds (Weighting.invMag 1) i j f
          = (maxMagSq ds)⁻¹ * weightsSqOf ds Weighting.uniform i j f := by
      intro i j f hi hj hf
      show (max (Cplx.normSq (ds.resp i j f)) (1 * maxMagSq ds))⁻¹
        = (maxMagSq ds)⁻¹ * 1
      rw [one_mul, mul_one, max_eq_right (normSq_le_maxMagSq ds hi hj hf)]
    exact vfCore_ws_congr ds _ _ _ _ _ _ _ _
      (fun mem hmem =>
        vfStep_ws_congr ds _ (inv_ne_zero hM) _ _ hss mem hmem)
      (fun mem hmem poles =>
        residuesFor_ws_congr ds _ (inv_ne_zero hM) _ _ hss mem hmem poles)

end VectorFit
